import Mathlib

/-!
Verification of the barrier / pub-sub subsystem
(work-dispatcher/consumer/barrier/api.py).

The development shallowly embeds the Python source:
pure fragments become Lean functions, the stateful pump and the
concurrent barrier protocol become explicit state-passing functions and
small-step transition relations.  Byte strings are lists of byte values
(Nat below 256); the broker counter is a Nat; timeouts are rationals.
-/

namespace BarrierApi

/-! ## Bytes and UTF-8 decoding

Python's bytes.decode("utf-8") is strict: it rejects continuation bytes
in lead position, overlong encodings, surrogate code points and values
above 0x10FFFF.  The decoder below implements exactly those rules on a
list of byte values.
-/

/-- A continuation byte has the form 10xxxxxx, i.e. lies in 0x80..0xBF. -/
def isCont (b : Nat) : Bool := b / 0x40 == 2

/-- Strict UTF-8 decoding of a byte list into code points, exactly the
acceptance rules of Python's bytes.decode("utf-8"): none on any
malformed input (where Python raises UnicodeDecodeError). -/
def utf8Decode : List Nat → Option (List Nat)
  | [] => some []
  | b :: rest =>
    if b < 0x80 then
      (utf8Decode rest).map (fun cs => b :: cs)
    else if b < 0xC2 then
      none
    else if b ≤ 0xDF then
      match rest with
      | b2 :: rest2 =>
        if isCont b2 then
          (utf8Decode rest2).map (fun cs => ((b - 0xC0) * 0x40 + (b2 - 0x80)) :: cs)
        else none
      | _ => none
    else if b ≤ 0xEF then
      match rest with
      | b2 :: b3 :: rest3 =>
        let lo2 : Nat := if b == 0xE0 then 0xA0 else 0x80
        let hi2 : Nat := if b == 0xED then 0x9F else 0xBF
        if lo2 ≤ b2 && b2 ≤ hi2 && isCont b3 then
          (utf8Decode rest3).map
            (fun cs => ((b - 0xE0) * 0x1000 + (b2 - 0x80) * 0x40 + (b3 - 0x80)) :: cs)
        else none
      | _ => none
    else if b ≤ 0xF4 then
      match rest with
      | b2 :: b3 :: b4 :: rest4 =>
        let lo2 : Nat := if b == 0xF0 then 0x90 else 0x80
        let hi2 : Nat := if b == 0xF4 then 0x8F else 0xBF
        if lo2 ≤ b2 && b2 ≤ hi2 && isCont b3 && isCont b4 then
          (utf8Decode rest4).map
            (fun cs => ((b - 0xF0) * 0x40000 + (b2 - 0x80) * 0x1000
                         + (b3 - 0x80) * 0x40 + (b4 - 0x80)) :: cs)
        else none
      | _ => none
    else none

/-- Decode a byte list to a Lean string, following utf8Decode. -/
def utf8DecodeStr (l : List Nat) : Option String :=
  (utf8Decode l).map (fun cs => String.mk (cs.map Char.ofNat))

/-- Encode one code point, inverse direction used to build test inputs. -/
def utf8EncodeChar (c : Nat) : List Nat :=
  if c < 0x80 then [c]
  else if c < 0x800 then [0xC0 + c / 0x40, 0x80 + c % 0x40]
  else if c < 0x10000 then
    [0xE0 + c / 0x1000, 0x80 + (c / 0x40) % 0x40, 0x80 + c % 0x40]
  else
    [0xF0 + c / 0x40000, 0x80 + (c / 0x1000) % 0x40,
     0x80 + (c / 0x40) % 0x40, 0x80 + c % 0x40]

/-! ## Errors

The source defines class TimeoutError(Exception).  Broker connectivity
failures are raised by the redis client as a different exception type;
the two kinds are distinct constructors here.
-/

/-- Error kinds that can escape a wait: the distinguished TimeoutError
declared by the module, or a broker/connectivity error propagated from
the underlying redis client. -/
inductive BarrierError
  | timeoutError
  | redisConnectionError (detail : String)
deriving DecidableEq

/-! ## Release (one-shot future)

A Release holds an event flag and a data slot.  trigger decodes the
incoming broker message, deregisters the channel named by the message,
stores the decoded payload and sets the event.  wait blocks on the
event; the boolean result of the underlying Event.wait (true iff the
flag was observed set before the deadline; with no timeout the call
returns only once the flag is set) decides between returning the data
and raising TimeoutError.
-/

/-- A raw broker pub-sub message as the pump hands it to a handler:
a dict with byte-string channel and data fields. -/
structure RawMsg where
  channel : List Nat
  data : List Nat
deriving DecidableEq

/-- Mutable state of one Release: the stored payload and the event flag. -/
structure ReleaseState where
  data : Option String
  eventSet : Bool
deriving DecidableEq

/-- A fresh Release: no data, event not set. -/
def Release.init : ReleaseState := ⟨none, false⟩

/-- The externally visible effects of Release.trigger on msg: the tag
passed to the notifier's unlisten call, the payload stored, and the new
release state.  none when a byte field is not valid UTF-8 (Python's
decode raises before any effect happens). -/
structure TriggerEffect where
  unlistenedTag : String
  stored : String
  state : ReleaseState
deriving DecidableEq

/-- Release.trigger: decode channel and data, unlisten the decoded
channel name, store the decoded data, set the event. -/
def Release.trigger (msg : RawMsg) : Option TriggerEffect :=
  match utf8DecodeStr msg.channel, utf8DecodeStr msg.data with
  | some tag, some data => some ⟨tag, data, ⟨some data, true⟩⟩
  | _, _ => none

/-- The result of threading.Event.wait inside Release.wait: with a
finite timeout it reports whether the flag was observed set before the
deadline; with timeout None the call returns only once the flag is set,
so when it returns the result is true. -/
def eventWaitResult (observedSetBeforeDeadline : Bool) (timeout : Option ℚ) : Bool :=
  match timeout with
  | none => true
  | some _ => observedSetBeforeDeadline

/-- Release.wait: returns the stored data when the event wait reports
done, raises TimeoutError otherwise.  The release state is read, never
written. -/
def Release.wait (r : ReleaseState) (observedSetBeforeDeadline : Bool)
    (timeout : Option ℚ) : Except BarrierError (Option String) :=
  if eventWaitResult observedSetBeforeDeadline timeout then
    Except.ok r.data
  else
    Except.error BarrierError.timeoutError

/-! ## The Channel Pump (DynamicPubSub)

The pump owns the pub-sub connection.  Its run loop repeats: one
bounded-wait poll (get_message with timeout=quantum, dispatching at most
one incoming message to the handler registered for its channel), then an
inner loop draining the command queue with get_nowait until Empty,
executing each command and setting its completion token if present.
stop clears the running flag; the loop then exits after its current
iteration and closes the pub-sub connection.

Handlers are identified by release ids (a handler is the trigger bound
method of one Release).  Message payloads at this layer are the decoded
strings; the byte-level decoding performed by Release.trigger is
modelled separately above.  Dispatching a message to a handler performs
what trigger does to shared pump state: it fulfills the release and
enqueues an unsubscribe command for the channel named by the message.
-/

/-- A queued command for the pump: pubsub.subscribe binding a tag to a
release's trigger handler, or pubsub.unsubscribe for a tag. -/
inductive PCmd
  | subscribeCmd (tag : String) (rid : Nat)
  | unsubscribeCmd (tag : String)
deriving DecidableEq

/-- Observable events of the pump loop, in program order. -/
inductive PEvent
  | pollEvent (quantum : ℚ)
  | deliverEvent (tag : String) (rid : Nat)
  | dropEvent (tag : String)
  | execEvent (c : PCmd)
  | closeEvent
deriving DecidableEq

/-- State shared through the pump: the pubsub channel-to-handler dict,
the backing store of releases by id, the command queue, and whether the
subscription connection has been closed. -/
structure PumpState where
  handlers : String → Option Nat
  releases : Nat → ReleaseState
  queue : List PCmd
  closed : Bool

namespace DynamicPubSub

/-- Default poll quantum of the pump constructor (0.5 seconds). -/
def defaultQuantum : ℚ := 0.5

/-- Execute one dequeued command: pubsub.subscribe installs the handler
for the tag, pubsub.unsubscribe removes the tag's entry (a no-op when
the tag has no entry; neither direction raises). -/
def execCmd (c : PCmd) (s : PumpState) : PumpState :=
  match c with
  | .subscribeCmd tag rid =>
    { s with handlers := fun t => if t = tag then some rid else s.handlers t }
  | .unsubscribeCmd tag =>
    { s with handlers := fun t => if t = tag then none else s.handlers t }

/-- The poll step: get_message returns at most one incoming message and
dispatches it to the handler currently registered for its channel.  The
handler is Release.trigger, which stores the payload, sets the event and
enqueues an unsubscribe for the channel named by the message; a message
on a channel with no handler is not delivered. -/
def dispatch (incoming : Option (String × String)) (s : PumpState) :
    PumpState × List PEvent :=
  match incoming with
  | none => (s, [])
  | some (tag, data) =>
    match s.handlers tag with
    | none => (s, [.dropEvent tag])
    | some rid =>
      ({ s with
          releases := fun r => if r = rid then ⟨some data, true⟩ else s.releases r,
          queue := s.queue ++ [.unsubscribeCmd tag] },
       [.deliverEvent tag rid])

/-- The inner drain loop: pop with get_nowait until Empty, executing
each command in FIFO order. -/
def drainRun : List PCmd → PumpState → PumpState × List PEvent
  | [], s => (s, [])
  | c :: rest, s =>
    let s1 := execCmd c s
    let (s2, tr) := drainRun rest s1
    (s2, .execEvent c :: tr)

/-- External input observed during one loop iteration: commands that
other threads enqueued since the previous drain, and the message the
poll returns (none when the quantum elapses without one). -/
structure IterInput where
  ext : List PCmd
  incoming : Option (String × String)

/-- One iteration of the run loop: a single bounded-wait poll, then the
drain of everything queued. -/
def pumpIter (quantum : ℚ) (inp : IterInput) (s : PumpState) :
    PumpState × List PEvent :=
  let s0 : PumpState := { s with queue := s.queue ++ inp.ext }
  let (s1, evs) := dispatch inp.incoming s0
  let (s2, evs2) := drainRun s1.queue { s1 with queue := [] }
  (s2, .pollEvent quantum :: (evs ++ evs2))

/-- The run loop from the point stop has not yet been observed: one
iteration per input, and when the running flag is observed clear the
loop exits and closes the pub-sub connection. -/
def run (quantum : ℚ) : List IterInput → PumpState → PumpState × List PEvent
  | [], s => ({ s with closed := true }, [.closeEvent])
  | inp :: rest, s =>
    let (s1, tr) := pumpIter quantum inp s
    let (s2, tr2) := run quantum rest s1
    (s2, tr ++ tr2)

end DynamicPubSub

/-- Release.wait as it acts on the shared pump state: it reads the
release's event and data and produces a result; it never calls the
notifier and writes nothing, so the pump state it returns is the one it
was given. -/
def Release.waitSys (s : PumpState) (rid : Nat) (observedSetBeforeDeadline : Bool)
    (timeout : Option ℚ) : Except BarrierError (Option String) × PumpState :=
  (Release.wait (s.releases rid) observedSetBeforeDeadline timeout, s)

/-! ## Barrier.sync as a sequence of effects

sync runs in the calling thread: listen (synchronous subscribe through
the pump), one atomic INCR, a conditional PUBLISH, then the blocking
wait.  The trace records the effects in program order.  The state of
this caller's release at the moment wait returns is produced by the
concurrently running pump, so it enters as a parameter.
-/

/-- Effects of one sync call in program order. -/
inductive SyncEvent
  | listenEvent (tag : String)
  | incrEvent (tag : String) (n : Nat)
  | publishEvent (tag : String) (message : String)
  | waitEvent (timeout : Option ℚ)
deriving DecidableEq

/-- The broker state sync touches: the counters keyed by tag, and the
list of performed publishes. -/
structure RedisState where
  counters : String → Nat
  published : List (String × String)

/-- Atomic INCR: increments the counter under the tag and returns the
post-increment value. -/
def Redis.incr (tag : String) (s : RedisState) : Nat × RedisState :=
  let n := s.counters tag + 1
  (n, { s with counters := fun t => if t = tag then n else s.counters t })

/-- PUBLISH of a message on a channel. -/
def Redis.publish (tag message : String) (s : RedisState) : RedisState :=
  { s with published := s.published ++ [(tag, message)] }

/-- State a sync call manipulates: the broker and the set of tags this
caller's notifier has registered listeners for. -/
structure SyncState where
  redis : RedisState
  listening : List String

/-- Barrier.sync: listen(tag), then INCR, then PUBLISH when the
post-increment value has reached count, then release.wait(timeout).
releaseAtWait is the state of this call's release as left by the pump
when the wait completes or times out. -/
def Barrier.sync (tag : String) (count : Nat) (message : String)
    (timeout : Option ℚ) (releaseAtWait : ReleaseState) (st : SyncState) :
    Except BarrierError (Option String) × SyncState × List SyncEvent :=
  let st1 : SyncState := { st with listening := st.listening ++ [tag] }
  let (n, r1) := Redis.incr tag st1.redis
  let r2 := if n ≥ count then Redis.publish tag message r1 else r1
  let result := Release.wait releaseAtWait releaseAtWait.eventSet timeout
  (result, { st1 with redis := r2 },
   [.listenEvent tag, .incrEvent tag n]
     ++ (if n ≥ count then [.publishEvent tag message] else [])
     ++ [.waitEvent timeout])

/-! ## BarrierContext acquisition and teardown

The constructor stores either the caller-supplied pool or a default
pool built from configuration (REDIS_URL), and then constructs both
redis clients passing the constructor argument pool — not the stored
self underscore pool — as connection_pool.  A client records the pool
argument it was built with; a client built with none creates its own
implicit pool from default parameters.
-/

/-- A connection pool, identified. -/
structure ConnectionPool where
  id : Nat
deriving DecidableEq

/-- A redis client as far as pooling is concerned: the connection_pool
argument it was constructed with (none means the client builds its own
implicit default pool). -/
structure RedisClientConn where
  connectionPool : Option ConnectionPool
deriving DecidableEq

/-- The fields BarrierContext.init sets. -/
structure BarrierContextState where
  pool : ConnectionPool
  ownPool : Bool
  conn : RedisClientConn
  sub : RedisClientConn
  pumpStarted : Bool
deriving DecidableEq

/-- BarrierContext constructor: poolArg is the pool parameter;
defaultPool is the pool that _create_default_pool builds from the
REDIS_URL configuration.  Both clients receive connection_pool=poolArg,
exactly as in the source. -/
def BarrierContext.init (poolArg : Option ConnectionPool)
    (defaultPool : ConnectionPool) : BarrierContextState :=
  match poolArg with
  | some p =>
    { pool := p, ownPool := false,
      conn := ⟨poolArg⟩, sub := ⟨poolArg⟩, pumpStarted := true }
  | none =>
    { pool := defaultPool, ownPool := true,
      conn := ⟨poolArg⟩, sub := ⟨poolArg⟩, pumpStarted := true }

/-- Teardown actions of BarrierContext exit, in order. -/
inductive TeardownEvent
  | stopPump
  | joinPump
  | disconnectPool (p : ConnectionPool)
  | closeConn (c : RedisClientConn)
deriving DecidableEq

/-- BarrierContext exit: stop the pump, join it, then disconnect the
stored pool when owned, else close the subscription and command
clients. -/
def BarrierContext.exit (st : BarrierContextState) : List TeardownEvent :=
  [.stopPump, .joinPump]
    ++ (if st.ownPool then [.disconnectPool st.pool]
        else [.closeConn st.sub, .closeConn st.conn])

/-! ## The subscribe / completion-token protocol

DynamicPubSub.subscribe enqueues a command carrying a fresh
threading.Event token and blocks on token.wait; the pump's drain loop
pops commands with get_nowait, executes each and sets its token.  The
small-step system below interleaves n subscribing callers with the
pump.  Callers are identified by their index; the trace records
executions and returns.
-/

/-- Where one subscribing caller stands. -/
inductive CallerPhase
  | beforeEnqueue
  | waitingToken
  | returned
deriving DecidableEq

/-- Trace events of the protocol: the pump executing caller i's queued
command, and caller i returning from subscribe. -/
inductive QEvent (n : Nat)
  | execQ (i : Fin n)
  | retQ (i : Fin n)
deriving DecidableEq

/-- Shared state: the FIFO command queue (a queued command is identified
by its caller), each caller's control point, each caller's token flag,
and the event trace. -/
structure QSys (n : Nat) where
  queue : List (Fin n)
  phase : Fin n → CallerPhase
  token : Fin n → Bool
  trace : List (QEvent n)

/-- Initial state: empty queue, every caller about to enqueue, every
token unset. -/
def QSys.init (n : Nat) : QSys n :=
  ⟨[], fun _ => .beforeEnqueue, fun _ => false, []⟩

/-- Interleaved steps: a caller atomically enqueues its command
(queue.put) and moves to token.wait; the pump pops the head command
(get_nowait), executes it and sets its token; a caller whose token is
set returns from subscribe. -/
inductive QStep (n : Nat) : QSys n → QSys n → Prop
  | enqueue (s : QSys n) (i : Fin n) (h : s.phase i = .beforeEnqueue) :
      QStep n s { s with queue := s.queue ++ [i],
                         phase := Function.update s.phase i .waitingToken }
  | pumpExec (s : QSys n) (i : Fin n) (rest : List (Fin n))
      (h : s.queue = i :: rest) :
      QStep n s { s with queue := rest,
                         token := Function.update s.token i true,
                         trace := s.trace ++ [.execQ i] }
  | callerReturn (s : QSys n) (i : Fin n) (h1 : s.phase i = .waitingToken)
      (h2 : s.token i = true) :
      QStep n s { s with phase := Function.update s.phase i .returned,
                         trace := s.trace ++ [.retQ i] }

/-- States of the protocol reachable from the initial state. -/
def QReachable (n : Nat) (s : QSys n) : Prop :=
  Relation.ReflTransGen (QStep n) (QSys.init n) s

/-! ## The barrier protocol as an interleaved system

k participants call sync on one fresh tag with count = k.  Participant
i runs: listen (synchronous subscribe, complete before the increment),
INCR (its ticket is the post-increment value), publish of its own
message when the ticket reached k, then wait.  The broker delivers a
published message to every participant subscribed at publish time; each
participant's pump then hands its copy to the release, which stores the
payload, unsubscribes and lets the wait return.
-/

/-- Control point of one sync participant. -/
inductive Phase
  | idle
  | listened
  | arrived
  | waitingRelease
  | finished (res : String)
deriving DecidableEq

/-- Global state of the barrier run for one fresh tag: the broker
counter, and per participant its control point, the post-increment
value its INCR returned, whether its release is still subscribed, the
published messages delivered to its connection but not yet handed to
the release, and its release's stored payload. -/
structure BSys (k : Nat) where
  counter : Nat
  phase : Fin k → Phase
  ticket : Fin k → Option Nat
  subs : Fin k → Bool
  inbox : Fin k → List String
  release : Fin k → Option String

/-- Fresh tag, nobody arrived yet. -/
def BSys.init (k : Nat) : BSys k :=
  ⟨0, fun _ => .idle, fun _ => none, fun _ => false, fun _ => [], fun _ => none⟩

/-- notifier.listen(tag): the synchronous subscribe completes, so the
registration is active when the step ends. -/
def BSys.doListen {k : Nat} (s : BSys k) (i : Fin k) : BSys k :=
  { s with subs := Function.update s.subs i true,
           phase := Function.update s.phase i .listened }

/-- client.incr(tag): atomic post-increment, recorded as the ticket. -/
def BSys.doIncr {k : Nat} (s : BSys k) (i : Fin k) : BSys k :=
  { s with counter := s.counter + 1,
           ticket := Function.update s.ticket i (some (s.counter + 1)),
           phase := Function.update s.phase i .arrived }

/-- The conditional publish after the increment: when the ticket n
reached the count k, client.publish(tag, message) delivers the
participant's own message to every connection subscribed at this
moment; in either case the participant proceeds to the wait. -/
def BSys.doPublish {k : Nat} (msgs : Fin k → String) (s : BSys k) (i : Fin k)
    (n : Nat) : BSys k :=
  if k ≤ n then
    { s with phase := Function.update s.phase i .waitingRelease,
             inbox := fun j => if s.subs j then s.inbox j ++ [msgs i] else s.inbox j }
  else
    { s with phase := Function.update s.phase i .waitingRelease }

/-- Participant j's pump hands the next buffered message to the handler
registered for the channel: when the release is still subscribed,
trigger stores the payload and unsubscribes; otherwise the message is
dropped. -/
def BSys.doDeliver {k : Nat} (s : BSys k) (j : Fin k) (m : String)
    (rest : List String) : BSys k :=
  if s.subs j then
    { s with inbox := Function.update s.inbox j rest,
             release := Function.update s.release j (some m),
             subs := Function.update s.subs j false }
  else
    { s with inbox := Function.update s.inbox j rest }

/-- release.wait returns the stored payload once the event is set. -/
def BSys.doWait {k : Nat} (s : BSys k) (j : Fin k) (m : String) : BSys k :=
  { s with phase := Function.update s.phase j (.finished m) }

/-- Interleaved steps of the k participants and their pumps. -/
inductive BStep (k : Nat) (msgs : Fin k → String) : BSys k → BSys k → Prop
  | listenStep (s : BSys k) (i : Fin k) (h : s.phase i = .idle) :
      BStep k msgs s (s.doListen i)
  | incrStep (s : BSys k) (i : Fin k) (h : s.phase i = .listened) :
      BStep k msgs s (s.doIncr i)
  | publishStep (s : BSys k) (i : Fin k) (n : Nat) (h : s.phase i = .arrived)
      (ht : s.ticket i = some n) :
      BStep k msgs s (s.doPublish msgs i n)
  | deliverStep (s : BSys k) (j : Fin k) (m : String) (rest : List String)
      (h : s.inbox j = m :: rest) :
      BStep k msgs s (s.doDeliver j m rest)
  | waitStep (s : BSys k) (j : Fin k) (m : String)
      (h1 : s.phase j = .waitingRelease) (h2 : s.release j = some m) :
      BStep k msgs s (s.doWait j m)

/-- Barrier runs reachable from the fresh tag. -/
def BReachable (k : Nat) (msgs : Fin k → String) (s : BSys k) : Prop :=
  Relation.ReflTransGen (BStep k msgs) (BSys.init k) s

/-! ## Helper lemmas on the pump -/

/-- Recognizer for poll events. -/
def PEvent.isPoll : PEvent → Bool
  | .pollEvent _ => true
  | _ => false

namespace DynamicPubSub

theorem execCmd_queue (c : PCmd) (s : PumpState) : (execCmd c s).queue = s.queue := by
  cases c <;> rfl

theorem execCmd_releases (c : PCmd) (s : PumpState) :
    (execCmd c s).releases = s.releases := by
  cases c <;> rfl

theorem execCmd_closed (c : PCmd) (s : PumpState) : (execCmd c s).closed = s.closed := by
  cases c <;> rfl

theorem drainRun_queue (cmds : List PCmd) (s : PumpState) :
    (drainRun cmds s).1.queue = s.queue := by
  induction cmds generalizing s with
  | nil => rfl
  | cons c rest ih => simp [drainRun, ih, execCmd_queue]

theorem drainRun_releases (cmds : List PCmd) (s : PumpState) :
    (drainRun cmds s).1.releases = s.releases := by
  induction cmds generalizing s with
  | nil => rfl
  | cons c rest ih => simp [drainRun, ih, execCmd_releases]

theorem drainRun_closed (cmds : List PCmd) (s : PumpState) :
    (drainRun cmds s).1.closed = s.closed := by
  induction cmds generalizing s with
  | nil => rfl
  | cons c rest ih => simp [drainRun, ih, execCmd_closed]

theorem drainRun_events (cmds : List PCmd) (s : PumpState) :
    ∀ e ∈ (drainRun cmds s).2, ∃ c, e = PEvent.execEvent c := by
  induction cmds generalizing s with
  | nil => intro e he; simp [drainRun] at he
  | cons c rest ih =>
    intro e he
    simp only [drainRun, List.mem_cons] at he
    rcases he with h | h
    · exact ⟨c, h⟩
    · exact ih _ e h

/-- One iteration: the trace opens with the single poll and continues
with delivery and command-execution events only, and the iteration ends
with the queue drained empty. -/
theorem pumpIter_shape (q : ℚ) (inp : IterInput) (s : PumpState) :
    ∃ tl, (pumpIter q inp s).2 = PEvent.pollEvent q :: tl
      ∧ (∀ e ∈ tl, e.isPoll = false ∧ e ≠ PEvent.closeEvent)
      ∧ (pumpIter q inp s).1.queue = [] := by
  obtain ⟨ext, incoming⟩ := inp
  have hq : ∀ (s1 : PumpState) (evs : List PEvent),
      (∀ e ∈ evs, e.isPoll = false ∧ e ≠ PEvent.closeEvent) →
      dispatch incoming { s with queue := s.queue ++ ext } = (s1, evs) →
      ∃ tl, (pumpIter q ⟨ext, incoming⟩ s).2 = PEvent.pollEvent q :: tl
        ∧ (∀ e ∈ tl, e.isPoll = false ∧ e ≠ PEvent.closeEvent)
        ∧ (pumpIter q ⟨ext, incoming⟩ s).1.queue = [] := by
    intro s1 evs hevs hdisp
    refine ⟨evs ++ (drainRun s1.queue { s1 with queue := [] }).2, ?_, ?_, ?_⟩
    · simp [pumpIter, hdisp]
    · intro e he
      rcases List.mem_append.mp he with h | h
      · exact hevs e h
      · obtain ⟨c, rfl⟩ := drainRun_events _ _ e h
        exact ⟨rfl, by simp⟩
    · simp [pumpIter, hdisp, drainRun_queue]
  cases incoming with
  | none => exact hq _ [] (by simp) rfl
  | some p =>
    obtain ⟨tag, data⟩ := p
    cases hh : s.handlers tag with
    | none =>
      refine hq { s with queue := s.queue ++ ext } [PEvent.dropEvent tag] ?_ ?_
      · intro e he; simp at he; subst he; exact ⟨rfl, by simp⟩
      · simp [dispatch, hh]
    | some rid =>
      refine hq { handlers := s.handlers,
                  releases := fun r => if r = rid then ⟨some data, true⟩ else s.releases r,
                  queue := (s.queue ++ ext) ++ [PCmd.unsubscribeCmd tag],
                  closed := s.closed }
        [PEvent.deliverEvent tag rid] ?_ ?_
      · intro e he; simp at he; subst he; exact ⟨rfl, by simp⟩
      · simp [dispatch, hh]

theorem run_trace_ne_nil (q : ℚ) (inputs : List IterInput) (s : PumpState) :
    (run q inputs s).2 ≠ [] := by
  cases inputs with
  | nil => simp [run]
  | cons inp rest =>
    obtain ⟨tl, htl, _, _⟩ := pumpIter_shape q inp s
    simp [run, htl]

theorem drainRun_state_append (a b : List PCmd) (s : PumpState) :
    (drainRun (a ++ b) s).1 = (drainRun b (drainRun a s).1).1 := by
  induction a generalizing s with
  | nil => rfl
  | cons c rest ih => simp [drainRun, ih]

theorem drainRun_handlers_none (cmds : List PCmd) (s : PumpState) (tag : String)
    (h : s.handlers tag = none)
    (hno : ∀ rid, PCmd.subscribeCmd tag rid ∉ cmds) :
    (drainRun cmds s).1.handlers tag = none := by
  induction cmds generalizing s with
  | nil => exact h
  | cons c rest ih =>
    simp only [drainRun]
    refine ih (execCmd c s) ?_ (fun rid hmem => hno rid (List.mem_cons_of_mem _ hmem))
    cases c with
    | subscribeCmd t r =>
      have hne : tag ≠ t := by
        intro he
        exact hno r (by simp [he])
      simp [execCmd, hne, h]
    | unsubscribeCmd t =>
      by_cases he : tag = t <;> simp [execCmd, he, h]

/-- Draining a queue whose final command unsubscribes the tag always
ends with the tag unregistered, whatever came before. -/
theorem drainRun_last_unsub (a : List PCmd) (tag : String) (s : PumpState) :
    (drainRun (a ++ [PCmd.unsubscribeCmd tag]) s).1.handlers tag = none := by
  rw [drainRun_state_append]
  simp [drainRun, execCmd]

/-- One iteration from a state where the tag has no handler, with no
queued or newly enqueued subscribe for the tag, delivers nothing on the
tag and leaves it unregistered. -/
theorem pumpIter_no_deliver (q : ℚ) (inp : IterInput) (s : PumpState) (tag : String)
    (h : s.handlers tag = none)
    (hq : ∀ rid, PCmd.subscribeCmd tag rid ∉ s.queue)
    (hext : ∀ rid, PCmd.subscribeCmd tag rid ∉ inp.ext) :
    (pumpIter q inp s).1.handlers tag = none
    ∧ (∀ rid, PEvent.deliverEvent tag rid ∉ (pumpIter q inp s).2) := by
  obtain ⟨ext, incoming⟩ := inp
  have hq0 : ∀ rid, PCmd.subscribeCmd tag rid ∉ s.queue ++ ext := by
    intro rid hmem
    rcases List.mem_append.mp hmem with hm | hm
    · exact hq rid hm
    · exact hext rid hm
  cases incoming with
  | none =>
    have hpi : pumpIter q ⟨ext, none⟩ s
        = ((drainRun (s.queue ++ ext) ⟨s.handlers, s.releases, [], s.closed⟩).1,
           PEvent.pollEvent q
             :: (drainRun (s.queue ++ ext) ⟨s.handlers, s.releases, [], s.closed⟩).2) := by
      simp [pumpIter, dispatch]
    constructor
    · rw [hpi]
      exact drainRun_handlers_none _ _ tag h hq0
    · intro rid hmem
      rw [hpi] at hmem
      rcases List.mem_cons.mp hmem with hm | hm
      · exact PEvent.noConfusion hm
      · obtain ⟨c, hc⟩ := drainRun_events _ _ _ hm
        exact PEvent.noConfusion hc
  | some p =>
    obtain ⟨tag2, data⟩ := p
    cases hh : s.handlers tag2 with
    | none =>
      have hpi : pumpIter q ⟨ext, some (tag2, data)⟩ s
          = ((drainRun (s.queue ++ ext) ⟨s.handlers, s.releases, [], s.closed⟩).1,
             PEvent.pollEvent q :: PEvent.dropEvent tag2
               :: (drainRun (s.queue ++ ext) ⟨s.handlers, s.releases, [], s.closed⟩).2) := by
        simp [pumpIter, dispatch, hh]
      constructor
      · rw [hpi]
        exact drainRun_handlers_none _ _ tag h hq0
      · intro rid hmem
        rw [hpi] at hmem
        rcases List.mem_cons.mp hmem with hm | hm
        · exact PEvent.noConfusion hm
        · rcases List.mem_cons.mp hm with hm2 | hm2
          · exact PEvent.noConfusion hm2
          · obtain ⟨c, hc⟩ := drainRun_events _ _ _ hm2
            exact PEvent.noConfusion hc
    | some rid2 =>
      have hne : tag2 ≠ tag := by
        intro he
        rw [he, h] at hh
        exact Option.noConfusion hh
      have hq1 : ∀ rid, PCmd.subscribeCmd tag rid
          ∉ s.queue ++ (ext ++ [PCmd.unsubscribeCmd tag2]) := by
        intro rid hmem
        rcases List.mem_append.mp hmem with hm | hm
        · exact hq0 rid (List.mem_append.mpr (Or.inl hm))
        · rcases List.mem_append.mp hm with hm2 | hm2
          · exact hq0 rid (List.mem_append.mpr (Or.inr hm2))
          · simp at hm2
      have hpi : pumpIter q ⟨ext, some (tag2, data)⟩ s
          = ((drainRun (s.queue ++ (ext ++ [PCmd.unsubscribeCmd tag2]))
                ⟨s.handlers,
                 fun r => if r = rid2 then ⟨some data, true⟩ else s.releases r,
                 [], s.closed⟩).1,
             PEvent.pollEvent q :: PEvent.deliverEvent tag2 rid2
               :: (drainRun (s.queue ++ (ext ++ [PCmd.unsubscribeCmd tag2]))
                ⟨s.handlers,
                 fun r => if r = rid2 then ⟨some data, true⟩ else s.releases r,
                 [], s.closed⟩).2) := by
        simp [pumpIter, dispatch, hh]
      constructor
      · rw [hpi]
        exact drainRun_handlers_none _ _ tag h hq1
      · intro rid hmem
        rw [hpi] at hmem
        rcases List.mem_cons.mp hmem with hm | hm
        · exact PEvent.noConfusion hm
        · rcases List.mem_cons.mp hm with hm2 | hm2
          · exact hne (congrArg (fun e => match e with
              | PEvent.deliverEvent t _ => t
              | _ => tag2) hm2).symm
          · obtain ⟨c, hc⟩ := drainRun_events _ _ _ hm2
            exact PEvent.noConfusion hc

/-- Whole runs from a state where the tag has no handler and no
subscribe for it is queued or ever enqueued: nothing is delivered on
the tag and it stays unregistered. -/
theorem run_no_deliver (q : ℚ) (inputs : List IterInput) (s : PumpState) (tag : String)
    (h : s.handlers tag = none)
    (hq : ∀ rid, PCmd.subscribeCmd tag rid ∉ s.queue)
    (hins : ∀ inp ∈ inputs, ∀ rid, PCmd.subscribeCmd tag rid ∉ inp.ext) :
    (∀ rid, PEvent.deliverEvent tag rid ∉ (run q inputs s).2)
    ∧ (run q inputs s).1.handlers tag = none := by
  induction inputs generalizing s with
  | nil =>
    exact ⟨fun rid hmem => by simp [run] at hmem, h⟩
  | cons inp rest ih =>
    obtain ⟨h1, h2⟩ := pumpIter_no_deliver q inp s tag h hq
      (fun rid => hins inp (by simp) rid)
    have hq1 : ∀ rid, PCmd.subscribeCmd tag rid ∉ (pumpIter q inp s).1.queue := by
      obtain ⟨tl, -, -, hqe⟩ := pumpIter_shape q inp s
      intro rid hmem
      rw [hqe] at hmem
      simp at hmem
    obtain ⟨ih1, ih2⟩ := ih (pumpIter q inp s).1 h1 hq1
      (fun inp2 hm rid => hins inp2 (List.mem_cons_of_mem _ hm) rid)
    constructor
    · intro rid hmem
      have htr : (run q (inp :: rest) s).2
          = (pumpIter q inp s).2 ++ (run q rest (pumpIter q inp s).1).2 := by
        simp [run]
      rw [htr] at hmem
      rcases List.mem_append.mp hmem with hm | hm
      · exact h2 rid hm
      · exact ih1 rid hm
    · have hst : (run q (inp :: rest) s).1 = (run q rest (pumpIter q inp s).1).1 := by
        simp [run]
      rw [hst]
      exact ih2

end DynamicPubSub

/-! ## Invariant of the barrier run

The key facts maintained by every interleaving: tickets are exactly the
post-increment values handed out so far (distinct, in 1..counter, one
per participant past its increment, and the counter counts them); a
participant is subscribed exactly between its listen and its release;
and every message sitting in an inbox, stored in a release or returned
from a wait is the message of a participant whose increment reached k.
-/

structure BInv (k : Nat) (msgs : Fin k → String) (s : BSys k) : Prop where
  ticket_phase : ∀ i, s.ticket i = none ↔ (s.phase i = .idle ∨ s.phase i = .listened)
  ticket_inj : ∀ i j n, s.ticket i = some n → s.ticket j = some n → i = j
  ticket_range : ∀ i n, s.ticket i = some n → 1 ≤ n ∧ n ≤ s.counter
  counter_card : s.counter
      = (Finset.univ.filter (fun i => (s.ticket i).isSome)).card
  idle_clean : ∀ i, s.phase i = .idle → s.release i = none
  subs_char : ∀ i, s.subs i = true ↔ (s.phase i ≠ .idle ∧ s.release i = none)
  msg_prov : ∀ j m,
    (m ∈ s.inbox j ∨ s.release j = some m ∨ s.phase j = .finished m) →
    ∃ w, s.ticket w = some k ∧ msgs w = m

theorem BInv.counter_le {k : Nat} {msgs : Fin k → String} {s : BSys k}
    (h : BInv k msgs s) : s.counter ≤ k := by
  rw [h.counter_card]
  calc (Finset.univ.filter (fun i => (s.ticket i).isSome)).card
      ≤ Finset.univ.card := Finset.card_filter_le _ _
    _ = k := by rw [Finset.card_univ, Fintype.card_fin]

theorem BInv.start (k : Nat) (msgs : Fin k → String) : BInv k msgs (BSys.init k) := by
  refine ⟨?_, ?_, ?_, ?_, ?_, ?_, ?_⟩ <;> simp [BSys.init]

theorem BInv.preserve {k : Nat} {msgs : Fin k → String} {s s2 : BSys k}
    (hinv : BInv k msgs s) (hs : BStep k msgs s s2) : BInv k msgs s2 := by
  cases hs with
  | listenStep i h =>
    refine ⟨?_, hinv.ticket_inj, hinv.ticket_range, hinv.counter_card, ?_, ?_, ?_⟩
      <;> dsimp only [BSys.doListen]
    · intro j
      by_cases hji : j = i
      · subst hji
        rw [Function.update_same]
        simp [(hinv.ticket_phase j).mpr (Or.inl h)]
      · rw [Function.update_noteq hji]
        exact hinv.ticket_phase j
    · intro j hj
      by_cases hji : j = i
      · subst hji
        rw [Function.update_same] at hj
        exact Phase.noConfusion hj
      · rw [Function.update_noteq hji] at hj
        exact hinv.idle_clean j hj
    · intro j
      by_cases hji : j = i
      · subst hji
        rw [Function.update_same, Function.update_same]
        simp [hinv.idle_clean j h]
      · rw [Function.update_noteq hji, Function.update_noteq hji]
        exact hinv.subs_char j
    · intro j m hsrc
      rcases hsrc with hm | hm | hm
      · exact hinv.msg_prov j m (Or.inl hm)
      · exact hinv.msg_prov j m (Or.inr (Or.inl hm))
      · by_cases hji : j = i
        · subst hji
          rw [Function.update_same] at hm
          exact Phase.noConfusion hm
        · rw [Function.update_noteq hji] at hm
          exact hinv.msg_prov j m (Or.inr (Or.inr hm))
  | incrStep i h =>
    have hnone : s.ticket i = none := (hinv.ticket_phase i).mpr (Or.inr h)
    have hlift : ∀ w, s.ticket w = some k →
        Function.update s.ticket i (some (s.counter + 1)) w = some k := by
      intro w hw
      have hwi : w ≠ i := by
        intro he
        rw [he, hnone] at hw
        exact Option.noConfusion hw
      rw [Function.update_noteq hwi]
      exact hw
    refine ⟨?_, ?_, ?_, ?_, ?_, ?_, ?_⟩ <;> dsimp only [BSys.doIncr]
    · intro j
      by_cases hji : j = i
      · subst hji
        rw [Function.update_same, Function.update_same]
        simp
      · rw [Function.update_noteq hji, Function.update_noteq hji]
        exact hinv.ticket_phase j
    · intro a b n ha hb
      by_cases haa : a = i <;> by_cases hbb : b = i
      · rw [haa, hbb]
      · subst haa
        rw [Function.update_same] at ha
        rw [Function.update_noteq hbb] at hb
        have h1 : n = s.counter + 1 := (Option.some_injective _ ha).symm
        have h2 := (hinv.ticket_range b n hb).2
        omega
      · subst hbb
        rw [Function.update_same] at hb
        rw [Function.update_noteq haa] at ha
        have h1 : n = s.counter + 1 := (Option.some_injective _ hb).symm
        have h2 := (hinv.ticket_range a n ha).2
        omega
      · rw [Function.update_noteq haa] at ha
        rw [Function.update_noteq hbb] at hb
        exact hinv.ticket_inj a b n ha hb
    · intro a n ha
      by_cases haa : a = i
      · subst haa
        rw [Function.update_same] at ha
        have h1 : s.counter + 1 = n := Option.some_injective _ ha
        omega
      · rw [Function.update_noteq haa] at ha
        have := hinv.ticket_range a n ha
        omega
    · have hset : (Finset.univ.filter
          (fun j => ((Function.update s.ticket i (some (s.counter + 1))) j).isSome))
          = insert i (Finset.univ.filter (fun j => (s.ticket j).isSome)) := by
        ext j
        by_cases hji : j = i
        · subst hji
          simp [Function.update_same]
        · simp [Function.update_noteq hji, hji]
      rw [hset, Finset.card_insert_of_not_mem (by simp [hnone]), ← hinv.counter_card]
    · intro j hj
      by_cases hji : j = i
      · subst hji
        rw [Function.update_same] at hj
        exact Phase.noConfusion hj
      · rw [Function.update_noteq hji] at hj
        exact hinv.idle_clean j hj
    · intro j
      by_cases hji : j = i
      · subst hji
        rw [Function.update_same]
        have hold := hinv.subs_char j
        rw [h] at hold
        simp only [ne_eq] at hold ⊢
        simpa using hold
      · rw [Function.update_noteq hji]
        exact hinv.subs_char j
    · intro j m hsrc
      rcases hsrc with hm | hm | hm
      · obtain ⟨w, hw, hwm⟩ := hinv.msg_prov j m (Or.inl hm)
        exact ⟨w, hlift w hw, hwm⟩
      · obtain ⟨w, hw, hwm⟩ := hinv.msg_prov j m (Or.inr (Or.inl hm))
        exact ⟨w, hlift w hw, hwm⟩
      · by_cases hji : j = i
        · subst hji
          rw [Function.update_same] at hm
          exact Phase.noConfusion hm
        · rw [Function.update_noteq hji] at hm
          obtain ⟨w, hw, hwm⟩ := hinv.msg_prov j m (Or.inr (Or.inr hm))
          exact ⟨w, hlift w hw, hwm⟩
  | publishStep i n h ht =>
    have htick : s.ticket i ≠ none := by
      rw [ht]
      exact Option.noConfusion
    by_cases hk : k ≤ n
    · have hnk : n = k :=
        Nat.le_antisymm ((hinv.ticket_range i n ht).2.trans hinv.counter_le) hk
      have hco : s.doPublish msgs i n
          = { s with phase := Function.update s.phase i .waitingRelease,
                     inbox := fun j => if s.subs j then s.inbox j ++ [msgs i] else s.inbox j } := by
        simp [BSys.doPublish, hk]
      rw [hco]
      refine ⟨?_, hinv.ticket_inj, hinv.ticket_range, hinv.counter_card, ?_, ?_, ?_⟩
        <;> dsimp only
      · intro j
        by_cases hji : j = i
        · subst hji
          rw [Function.update_same]
          simp [htick]
        · rw [Function.update_noteq hji]
          exact hinv.ticket_phase j
      · intro j hj
        by_cases hji : j = i
        · subst hji
          rw [Function.update_same] at hj
          exact Phase.noConfusion hj
        · rw [Function.update_noteq hji] at hj
          exact hinv.idle_clean j hj
      · intro j
        by_cases hji : j = i
        · subst hji
          rw [Function.update_same]
          have hold := hinv.subs_char j
          rw [h] at hold
          simp only [ne_eq] at hold ⊢
          simpa using hold
        · rw [Function.update_noteq hji]
          exact hinv.subs_char j
      · intro j m hsrc
        rcases hsrc with hm | hm | hm
        · by_cases hsj : s.subs j = true
          · rw [if_pos hsj] at hm
            rcases List.mem_append.mp hm with hm2 | hm2
            · exact hinv.msg_prov j m (Or.inl hm2)
            · refine ⟨i, ?_, ?_⟩
              · exact hnk ▸ ht
              · simp at hm2
                rw [hm2]
          · rw [if_neg hsj] at hm
            exact hinv.msg_prov j m (Or.inl hm)
        · exact hinv.msg_prov j m (Or.inr (Or.inl hm))
        · by_cases hji : j = i
          · subst hji
            rw [Function.update_same] at hm
            exact Phase.noConfusion hm
          · rw [Function.update_noteq hji] at hm
            exact hinv.msg_prov j m (Or.inr (Or.inr hm))
    · have hco : s.doPublish msgs i n
          = { s with phase := Function.update s.phase i .waitingRelease } := by
        simp [BSys.doPublish, hk]
      rw [hco]
      refine ⟨?_, hinv.ticket_inj, hinv.ticket_range, hinv.counter_card, ?_, ?_, ?_⟩
        <;> dsimp only
      · intro j
        by_cases hji : j = i
        · subst hji
          rw [Function.update_same]
          simp [htick]
        · rw [Function.update_noteq hji]
          exact hinv.ticket_phase j
      · intro j hj
        by_cases hji : j = i
        · subst hji
          rw [Function.update_same] at hj
          exact Phase.noConfusion hj
        · rw [Function.update_noteq hji] at hj
          exact hinv.idle_clean j hj
      · intro j
        by_cases hji : j = i
        · subst hji
          rw [Function.update_same]
          have hold := hinv.subs_char j
          rw [h] at hold
          simp only [ne_eq] at hold ⊢
          simpa using hold
        · rw [Function.update_noteq hji]
          exact hinv.subs_char j
      · intro j m hsrc
        rcases hsrc with hm | hm | hm
        · exact hinv.msg_prov j m (Or.inl hm)
        · exact hinv.msg_prov j m (Or.inr (Or.inl hm))
        · by_cases hji : j = i
          · subst hji
            rw [Function.update_same] at hm
            exact Phase.noConfusion hm
          · rw [Function.update_noteq hji] at hm
            exact hinv.msg_prov j m (Or.inr (Or.inr hm))
  | deliverStep j m rest h =>
    by_cases hsj : s.subs j = true
    · have hpj : s.phase j ≠ .idle := ((hinv.subs_char j).mp hsj).1
      have hco : s.doDeliver j m rest
          = { s with inbox := Function.update s.inbox j rest,
                     release := Function.update s.release j (some m),
                     subs := Function.update s.subs j false } := by
        simp [BSys.doDeliver, hsj]
      rw [hco]
      refine ⟨hinv.ticket_phase, hinv.ticket_inj, hinv.ticket_range,
        hinv.counter_card, ?_, ?_, ?_⟩ <;> dsimp only
      · intro a ha
        by_cases haj : a = j
        · subst haj
          exact absurd ha hpj
        · rw [Function.update_noteq haj]
          exact hinv.idle_clean a ha
      · intro a
        by_cases haj : a = j
        · subst haj
          rw [Function.update_same, Function.update_same]
          simp
        · rw [Function.update_noteq haj, Function.update_noteq haj]
          exact hinv.subs_char a
      · intro a m2 hsrc
        rcases hsrc with hm | hm | hm
        · by_cases haj : a = j
          · subst haj
            rw [Function.update_same] at hm
            refine hinv.msg_prov a m2 (Or.inl ?_)
            rw [h]
            exact List.mem_cons_of_mem m hm
          · rw [Function.update_noteq haj] at hm
            exact hinv.msg_prov a m2 (Or.inl hm)
        · by_cases haj : a = j
          · subst haj
            rw [Function.update_same] at hm
            have hmm : m2 = m := (Option.some_injective _ hm).symm
            subst hmm
            refine hinv.msg_prov a m2 (Or.inl ?_)
            rw [h]
            exact List.mem_cons_self m2 rest
          · rw [Function.update_noteq haj] at hm
            exact hinv.msg_prov a m2 (Or.inr (Or.inl hm))
        · exact hinv.msg_prov a m2 (Or.inr (Or.inr hm))
    · have hco : s.doDeliver j m rest
          = { s with inbox := Function.update s.inbox j rest } := by
        simp [BSys.doDeliver, hsj]
      rw [hco]
      refine ⟨hinv.ticket_phase, hinv.ticket_inj, hinv.ticket_range,
        hinv.counter_card, hinv.idle_clean, hinv.subs_char, ?_⟩
      intro a m2 hsrc
      rcases hsrc with hm | hm | hm
      · dsimp only at hm
        by_cases haj : a = j
        · subst haj
          rw [Function.update_same] at hm
          refine hinv.msg_prov a m2 (Or.inl ?_)
          rw [h]
          exact List.mem_cons_of_mem m hm
        · rw [Function.update_noteq haj] at hm
          exact hinv.msg_prov a m2 (Or.inl hm)
      · exact hinv.msg_prov a m2 (Or.inr (Or.inl hm))
      · exact hinv.msg_prov a m2 (Or.inr (Or.inr hm))
  | waitStep j m h1 h2 =>
    have htick : s.ticket j ≠ none := by
      intro he
      rcases (hinv.ticket_phase j).mp he with hp | hp
        <;> (rw [h1] at hp; exact Phase.noConfusion hp)
    refine ⟨?_, hinv.ticket_inj, hinv.ticket_range, hinv.counter_card, ?_, ?_, ?_⟩
      <;> dsimp only [BSys.doWait]
    · intro a
      by_cases haj : a = j
      · subst haj
        rw [Function.update_same]
        simp [htick]
      · rw [Function.update_noteq haj]
        exact hinv.ticket_phase a
    · intro a ha
      by_cases haj : a = j
      · subst haj
        rw [Function.update_same] at ha
        exact Phase.noConfusion ha
      · rw [Function.update_noteq haj] at ha
        exact hinv.idle_clean a ha
    · intro a
      by_cases haj : a = j
      · subst haj
        rw [Function.update_same]
        have hold := hinv.subs_char a
        rw [h1] at hold
        simp only [ne_eq] at hold ⊢
        simpa using hold
      · rw [Function.update_noteq haj]
        exact hinv.subs_char a
    · intro a m2 hsrc
      rcases hsrc with hm | hm | hm
      · exact hinv.msg_prov a m2 (Or.inl hm)
      · exact hinv.msg_prov a m2 (Or.inr (Or.inl hm))
      · by_cases haj : a = j
        · subst haj
          rw [Function.update_same] at hm
          have hmm : m = m2 := by
            cases hm
            rfl
          subst hmm
          exact hinv.msg_prov a m (Or.inr (Or.inl h2))
        · rw [Function.update_noteq haj] at hm
          exact hinv.msg_prov a m2 (Or.inr (Or.inr hm))

theorem BInv.of_breachable {k : Nat} {msgs : Fin k → String} {s : BSys k}
    (hr : BReachable k msgs s) : BInv k msgs s := by
  induction hr with
  | refl => exact BInv.start k msgs
  | tail hsteps hstep ih => exact ih.preserve hstep

/-! ## Invariant of the subscribe / completion-token protocol -/

/-- Invariant tying queue occupancy, execution count, token flag and
caller control point together. -/
structure QInv {n : Nat} (s : QSys n) : Prop where
  before_clean : ∀ i, s.phase i = .beforeEnqueue →
    i ∉ s.queue ∧ s.token i = false ∧ s.trace.count (.execQ i) = 0
  enq_once : ∀ i, s.phase i ≠ .beforeEnqueue →
    s.queue.count i + s.trace.count (.execQ i) = 1
  token_exec : ∀ i, s.token i = true ↔ 1 ≤ s.trace.count (.execQ i)
  ret_token : ∀ i, s.phase i = .returned → s.token i = true

theorem QInv.init (n : Nat) : QInv (QSys.init n) := by
  refine ⟨?_, ?_, ?_, ?_⟩ <;> intro i <;> simp [QSys.init]

theorem QInv.preserved {n : Nat} {s s2 : QSys n} (hinv : QInv s) (hs : QStep n s s2) :
    QInv s2 := by
  cases hs with
  | enqueue i h =>
    obtain ⟨hni, htok, hex⟩ := hinv.before_clean i h
    refine ⟨?_, ?_, hinv.token_exec, ?_⟩ <;> dsimp only
    · intro j hj
      have hji : j ≠ i := by
        intro he
        rw [he, Function.update_same] at hj
        exact CallerPhase.noConfusion hj
      rw [Function.update_noteq hji] at hj
      obtain ⟨h1, h2, h3⟩ := hinv.before_clean j hj
      refine ⟨?_, h2, h3⟩
      intro hmem
      rcases List.mem_append.mp hmem with hm | hm
      · exact h1 hm
      · simp at hm
        exact hji hm
    · intro j hj
      by_cases hji : j = i
      · subst hji
        rw [List.count_append, List.count_eq_zero_of_not_mem hni, hex,
            List.count_singleton]
        simp
      · rw [Function.update_noteq hji] at hj
        have := hinv.enq_once j hj
        rw [List.count_append, List.count_singleton]
        have hne : (i == j) = false := by
          simp [Ne.symm hji]
        rw [hne]
        simpa using this
    · intro j hj
      by_cases hji : j = i
      · subst hji
        rw [Function.update_same] at hj
        exact CallerPhase.noConfusion hj
      · rw [Function.update_noteq hji] at hj
        exact hinv.ret_token j hj
  | pumpExec i rest h =>
    have hiq : i ∈ s.queue := by
      rw [h]
      exact List.mem_cons_self i rest
    have hpi : s.phase i ≠ .beforeEnqueue := by
      intro hp
      exact (hinv.before_clean i hp).1 hiq
    have hsum := hinv.enq_once i hpi
    rw [h, List.count_cons] at hsum
    simp at hsum
    obtain ⟨hrest0, hex0⟩ : rest.count i = 0 ∧ s.trace.count (.execQ i) = 0 := by
      omega
    refine ⟨?_, ?_, ?_, ?_⟩ <;> dsimp only
    · intro j hj
      obtain ⟨h1, h2, h3⟩ := hinv.before_clean j hj
      have hji : j ≠ i := by
        intro he
        rw [he] at h1
        exact h1 hiq
      refine ⟨?_, ?_, ?_⟩
      · intro hmem
        exact h1 (by rw [h]; exact List.mem_cons_of_mem i hmem)
      · rw [Function.update_noteq hji]
        exact h2
      · rw [List.count_append, h3, List.count_singleton]
        simp [Ne.symm hji]
    · intro j hj
      by_cases hji : j = i
      · subst hji
        rw [hrest0, List.count_append, hex0, List.count_singleton]
        simp
      · have := hinv.enq_once j hj
        rw [h, List.count_cons] at this
        have hne : (i == j) = false := by
          simp [Ne.symm hji]
        rw [hne] at this
        simp at this
        rw [List.count_append, List.count_singleton]
        have hne2 : (QEvent.execQ i == QEvent.execQ j) = false := by
          simp [hji, Ne.symm hji]
        rw [hne2]
        simpa using this
    · intro j
      by_cases hji : j = i
      · subst hji
        rw [Function.update_same, List.count_append, hex0, List.count_singleton]
        simp
      · rw [Function.update_noteq hji, List.count_append, List.count_singleton]
        have hne2 : (QEvent.execQ i == QEvent.execQ j) = false := by
          simp [hji, Ne.symm hji]
        rw [hne2]
        simpa using hinv.token_exec j
    · intro j hj
      by_cases hji : j = i
      · subst hji
        rw [Function.update_same]
      · rw [Function.update_noteq hji]
        exact hinv.ret_token j hj
  | callerReturn i h1 h2 =>
    have hexecr : ∀ j, (s.trace ++ [QEvent.retQ i]).count (QEvent.execQ j)
        = s.trace.count (QEvent.execQ j) := by
      intro j
      rw [List.count_append, List.count_singleton]
      simp
    refine ⟨?_, ?_, ?_, ?_⟩ <;> dsimp only
    · intro j hj
      have hji : j ≠ i := by
        intro he
        rw [he, Function.update_same] at hj
        exact CallerPhase.noConfusion hj
      rw [Function.update_noteq hji] at hj
      obtain ⟨ha, hb, hc⟩ := hinv.before_clean j hj
      exact ⟨ha, hb, by rw [hexecr, hc]⟩
    · intro j hj
      rw [hexecr]
      by_cases hji : j = i
      · subst hji
        refine hinv.enq_once j ?_
        rw [h1]
        intro he
        exact CallerPhase.noConfusion he
      · rw [Function.update_noteq hji] at hj
        exact hinv.enq_once j hj
    · intro j
      rw [hexecr]
      exact hinv.token_exec j
    · intro j hj
      by_cases hji : j = i
      · subst hji
        exact h2
      · rw [Function.update_noteq hji] at hj
        exact hinv.ret_token j hj

theorem QInv.of_reachable {n : Nat} {s : QSys n} (hr : QReachable n s) : QInv s := by
  induction hr with
  | refl => exact QInv.init n
  | tail hsteps hstep ih => exact ih.preserved hstep

/-! ## Theorems -/

/-- C2: Barrier.sync registers the listener first (before any counter
change), then atomically increments the counter under the tag obtaining
the post-increment value n, publishes the call's message on channel tag
exactly when n reached count, and finally blocks on the release's wait
and returns its result: the emitted effect trace is listen, incr, an
optional publish, wait, in that order. -/
theorem barrier_sync_effect_order (tag : String) (count : Nat) (message : String)
    (timeout : Option ℚ) (rel : ReleaseState) (st : SyncState) :
    (Barrier.sync tag count message timeout rel st).2.2
      = [SyncEvent.listenEvent tag,
         SyncEvent.incrEvent tag (st.redis.counters tag + 1)]
        ++ (if st.redis.counters tag + 1 ≥ count
            then [SyncEvent.publishEvent tag message] else [])
        ++ [SyncEvent.waitEvent timeout]
    ∧ (Barrier.sync tag count message timeout rel st).2.1.listening
        = st.listening ++ [tag]
    ∧ (Barrier.sync tag count message timeout rel st).2.1.redis.counters tag
        = st.redis.counters tag + 1
    ∧ (Barrier.sync tag count message timeout rel st).2.1.redis.published
        = st.redis.published
          ++ (if st.redis.counters tag + 1 ≥ count then [(tag, message)] else [])
    ∧ (Barrier.sync tag count message timeout rel st).1
        = Release.wait rel rel.eventSet timeout := by
  refine ⟨rfl, rfl, ?_, ?_, rfl⟩
  · simp [Barrier.sync, Redis.incr, Redis.publish]
    split <;> simp
  · simp [Barrier.sync, Redis.incr, Redis.publish]
    split <;> simp

/-- C4: Release.wait returns the stored data when fulfillment was
observed before the deadline, blocks until fulfilled when no timeout is
given (so on return it yields the data), raises the distinguished
TimeoutError otherwise, and TimeoutError is a different error from any
broker connectivity error. -/
theorem release_wait_timeout_behavior (r : ReleaseState) (t : ℚ) (d : String) :
    Release.wait r true (some t) = Except.ok r.data
    ∧ Release.wait r false (some t) = Except.error BarrierError.timeoutError
    ∧ (∀ b, Release.wait r b none = Except.ok r.data)
    ∧ BarrierError.timeoutError ≠ BarrierError.redisConnectionError d := by
  refine ⟨rfl, rfl, fun b => rfl, by simp⟩

/-- C5: evaluating the constructor at pool=None shows the slip: the
context stores the default pool built from configuration and marks it
owned, yet both clients are constructed with connection_pool=None (the
constructor argument), so neither connection is opened against the
obtained pool. -/
theorem barrier_context_default_pool_unused :
    (BarrierContext.init none ⟨0⟩).ownPool = true
    ∧ (BarrierContext.init none ⟨0⟩).pool = ⟨0⟩
    ∧ (BarrierContext.init none ⟨0⟩).conn.connectionPool = none
    ∧ (BarrierContext.init none ⟨0⟩).sub.connectionPool = none
    ∧ (BarrierContext.init none ⟨0⟩).conn.connectionPool
        ≠ some (BarrierContext.init none ⟨0⟩).pool := by
  refine ⟨rfl, rfl, rfl, rfl, by simp [BarrierContext.init]⟩

/-- C1: in any complete interleaved run of k participants calling sync
on one fresh tag with count k and messages msgs, one participant's
increment reached exactly k, and every participant's call returned that
participant's message: all k calls return the identical message, the
message of whichever participant's atomic increment crossed the
threshold (whether or not that is the caller itself), whatever the
arrival order. -/
theorem barrier_sync_agreement (k : Nat) (msgs : Fin k → String) (hk : 0 < k)
    (s : BSys k) (hr : BReachable k msgs s)
    (hdone : ∀ j, ∃ m, s.phase j = .finished m) :
    ∃ w, s.ticket w = some k
      ∧ (∀ j m, s.phase j = .finished m → m = msgs w) := by
  have hinv : BInv k msgs s := BInv.of_breachable hr
  have hts : ∀ j, (s.ticket j).isSome := by
    intro j
    obtain ⟨m, hm⟩ := hdone j
    cases hj : s.ticket j with
    | none =>
      rcases (hinv.ticket_phase j).mp hj with hp | hp
        <;> (rw [hm] at hp; exact Phase.noConfusion hp)
    | some v => rfl
  have hcounter : s.counter = k := by
    rw [hinv.counter_card, Finset.filter_true_of_mem (fun i _ => hts i),
      Finset.card_univ, Fintype.card_fin]
  have hsomeval : ∀ j, s.ticket j = some ((s.ticket j).get (hts j)) :=
    fun j => (Option.some_get (hts j)).symm
  have hbound : ∀ j, (s.ticket j).get (hts j) - 1 < k := by
    intro j
    have hrange := hinv.ticket_range j _ (hsomeval j)
    omega
  have hinj : Function.Injective
      (fun j : Fin k => (⟨(s.ticket j).get (hts j) - 1, hbound j⟩ : Fin k)) := by
    intro a b hab
    have hv : (s.ticket a).get (hts a) - 1 = (s.ticket b).get (hts b) - 1 :=
      congrArg Fin.val hab
    have ha := hinv.ticket_range a _ (hsomeval a)
    have hb := hinv.ticket_range b _ (hsomeval b)
    have hv2 : (s.ticket a).get (hts a) = (s.ticket b).get (hts b) := by
      omega
    exact hinv.ticket_inj a b _ (hsomeval a) (hv2 ▸ hsomeval b)
  obtain ⟨w, hw⟩ := Finite.injective_iff_surjective.mp hinj ⟨k - 1, by omega⟩
  have hwval : (s.ticket w).get (hts w) - 1 = k - 1 := congrArg Fin.val hw
  have hwrange := hinv.ticket_range w _ (hsomeval w)
  have hwk : (s.ticket w).get (hts w) = k := by
    omega
  have hwt : s.ticket w = some k := by
    rw [hsomeval w, hwk]
  refine ⟨w, hwt, ?_⟩
  intro j m hj
  obtain ⟨w2, hw2t, hw2m⟩ := hinv.msg_prov j m (Or.inr (Or.inr hj))
  rw [← hw2m, hinv.ticket_inj w2 w k hw2t hwt]

/-- After the one participant of a one-participant barrier listens. -/
def bState1 : BSys 1 := (BSys.init 1).doListen 0

/-- After its increment: the counter reached 1 = k. -/
def bState2 : BSys 1 := bState1.doIncr 0

/-- After its publish: its own message is broadcast to itself. -/
def bState3 : BSys 1 := bState2.doPublish (fun _ => "A") 0 1

/-- After its pump hands the message to the release. -/
def bState4 : BSys 1 := bState3.doDeliver 0 "A" []

/-- After its wait returns. -/
def bFinal : BSys 1 := bState4.doWait 0 "A"

theorem bFinal_reachable : BReachable 1 (fun _ => "A") bFinal :=
  Relation.ReflTransGen.head (BStep.listenStep (BSys.init 1) 0 rfl)
    (Relation.ReflTransGen.head (BStep.incrStep bState1 0 (by decide))
      (Relation.ReflTransGen.head (BStep.publishStep bState2 0 1 (by decide) (by decide))
        (Relation.ReflTransGen.head (BStep.deliverStep bState3 0 "A" [] (by decide))
          (Relation.ReflTransGen.head (BStep.waitStep bState4 0 "A" (by decide) (by decide))
            Relation.ReflTransGen.refl))))

/-- C1 witness: the one-participant run with message A completes; the
crossing ticket is 1 and the returned message is A. -/
theorem barrier_sync_agreement_witness :
    ∃ w : Fin 1, bFinal.ticket w = some 1
      ∧ (∀ j m, bFinal.phase j = Phase.finished m → m = (fun _ : Fin 1 => "A") w) :=
  barrier_sync_agreement 1 (fun _ => "A") (by decide) bFinal bFinal_reachable
    (fun j => ⟨"A", by fin_cases j; decide⟩)

/-- C3: in every reachable state of the subscribe protocol, no queued
command has been executed more than once; an enqueued command is still
queued or has been executed, exactly one of the two (never dropped,
never duplicated); a caller that has returned from subscribe has its
completion token set and its command executed exactly once (so the call
returned only after the pump dequeued and executed it and set the
signal); and a set token witnesses the execution. -/
theorem dynamic_pubsub_subscribe_exactly_once {n : Nat} (s : QSys n)
    (hr : QReachable n s) :
    (∀ i, s.trace.count (.execQ i) ≤ 1)
    ∧ (∀ i, s.phase i ≠ .beforeEnqueue →
        s.queue.count i + s.trace.count (.execQ i) = 1)
    ∧ (∀ i, s.phase i = .returned →
        s.token i = true ∧ s.trace.count (.execQ i) = 1)
    ∧ (∀ i, s.token i = true → 1 ≤ s.trace.count (.execQ i)) := by
  have hinv := QInv.of_reachable hr
  refine ⟨?_, hinv.enq_once, ?_, fun i hi => (hinv.token_exec i).mp hi⟩
  · intro i
    by_cases hp : s.phase i = .beforeEnqueue
    · rw [(hinv.before_clean i hp).2.2]
      omega
    · have := hinv.enq_once i hp
      omega
  · intro i hi
    have ht := hinv.ret_token i hi
    have hp : s.phase i ≠ .beforeEnqueue := by
      rw [hi]
      intro he
      exact CallerPhase.noConfusion he
    have h1 := hinv.enq_once i hp
    have h2 := (hinv.token_exec i).mp ht
    exact ⟨ht, by omega⟩

/-- State after caller 0 enqueued its subscribe command. -/
def qMid1 : QSys 1 :=
  { QSys.init 1 with
    queue := (QSys.init 1).queue ++ [0],
    phase := Function.update (QSys.init 1).phase 0 .waitingToken }

/-- State after the pump executed the command and set the token. -/
def qMid2 : QSys 1 :=
  { qMid1 with
    queue := [],
    token := Function.update qMid1.token 0 true,
    trace := qMid1.trace ++ [.execQ 0] }

/-- State after caller 0 returned from subscribe. -/
def qFinal : QSys 1 :=
  { qMid2 with
    phase := Function.update qMid2.phase 0 .returned,
    trace := qMid2.trace ++ [.retQ 0] }

theorem qFinal_reachable : QReachable 1 qFinal :=
  Relation.ReflTransGen.head (QStep.enqueue (QSys.init 1) 0 rfl)
    (Relation.ReflTransGen.head (QStep.pumpExec qMid1 0 [] rfl)
      (Relation.ReflTransGen.head
        (QStep.callerReturn qMid2 0 (by decide) (by decide))
        Relation.ReflTransGen.refl))

/-- C3 witness: in the concrete run where one caller subscribes, the
pump serves it and the caller returns, the returned caller's token is
set and its command was executed exactly once. -/
theorem dynamic_pubsub_subscribe_exactly_once_witness :
    qFinal.token 0 = true ∧ qFinal.trace.count (.execQ 0) = 1 :=
  (dynamic_pubsub_subscribe_exactly_once qFinal qFinal_reachable).2.2.1 0 (by decide)

/-- C6: each iteration of the pump loop performs exactly one bounded
poll of the broker (bounded by the configured quantum, whose
constructor default is 0.5) followed by delivery and command executions
only, and finishes with the command queue drained empty before the next
poll; once stop has been observed the loop performs no further
iteration and its final action is closing the subscription connection:
over a whole run the polls number exactly the iterations, and the close
happens exactly once, last. -/
theorem dynamic_pubsub_run_loop_shape :
    (∀ (q : ℚ) (inp : DynamicPubSub.IterInput) (s : PumpState),
        ∃ tl, (DynamicPubSub.pumpIter q inp s).2 = PEvent.pollEvent q :: tl
          ∧ (∀ e ∈ tl, e.isPoll = false ∧ e ≠ PEvent.closeEvent)
          ∧ (DynamicPubSub.pumpIter q inp s).1.queue = [])
    ∧ (∀ (q : ℚ) (inputs : List DynamicPubSub.IterInput) (s : PumpState),
        (DynamicPubSub.run q inputs s).2.countP PEvent.isPoll = inputs.length
          ∧ (DynamicPubSub.run q inputs s).2.getLast? = some PEvent.closeEvent
          ∧ (DynamicPubSub.run q inputs s).2.count PEvent.closeEvent = 1
          ∧ (DynamicPubSub.run q inputs s).1.closed = true)
    ∧ DynamicPubSub.defaultQuantum = 1 / 2 := by
  refine ⟨DynamicPubSub.pumpIter_shape, ?_, by norm_num [DynamicPubSub.defaultQuantum]⟩
  intro q inputs
  induction inputs with
  | nil =>
    intro s
    refine ⟨?_, ?_, ?_, rfl⟩ <;> simp [DynamicPubSub.run, PEvent.isPoll]
  | cons inp rest ih =>
    intro s
    obtain ⟨tl, htl, hprop, hqueue⟩ := DynamicPubSub.pumpIter_shape q inp s
    have hne := DynamicPubSub.run_trace_ne_nil q rest (DynamicPubSub.pumpIter q inp s).1
    have htr : (DynamicPubSub.run q (inp :: rest) s).2
        = (DynamicPubSub.pumpIter q inp s).2
          ++ (DynamicPubSub.run q rest (DynamicPubSub.pumpIter q inp s).1).2 := by
      simp [DynamicPubSub.run]
    have hst : (DynamicPubSub.run q (inp :: rest) s).1
        = (DynamicPubSub.run q rest (DynamicPubSub.pumpIter q inp s).1).1 := by
      simp [DynamicPubSub.run]
    obtain ⟨ih1, ih2, ih3, ih4⟩ := ih (DynamicPubSub.pumpIter q inp s).1
    refine ⟨?_, ?_, ?_, ?_⟩
    · rw [htr, List.countP_append, htl, ih1]
      have : tl.countP PEvent.isPoll = 0 :=
        List.countP_eq_zero.mpr (fun e he => by simp [(hprop e he).1])
      simp [List.countP_cons, this, PEvent.isPoll, Nat.add_comm]
    · rw [htr, List.getLast?_append_of_ne_nil _ hne, ih2]
    · rw [htr, List.count_append, ih3]
      have : (DynamicPubSub.pumpIter q inp s).2.count PEvent.closeEvent = 0 := by
        refine List.count_eq_zero.mpr ?_
        rw [htl]
        intro hmem
        rcases List.mem_cons.mp hmem with h | h
        · exact PEvent.noConfusion h
        · exact (hprop _ h).2 rfl
      simp [this]
    · rw [hst]; exact ih4

/-- C8: on the timeout path Release.wait raises TimeoutError and leaves
the shared pump state untouched: the tag-to-handler registrations, the
command queue and every release are exactly as before, so the waiter's
subscription remains registered and no deregistration happens. -/
theorem release_wait_timeout_frame (s : PumpState) (rid : Nat) (t : ℚ) :
    (Release.waitSys s rid false (some t)).1
        = Except.error BarrierError.timeoutError
    ∧ (Release.waitSys s rid false (some t)).2.handlers = s.handlers
    ∧ (Release.waitSys s rid false (some t)).2.queue = s.queue
    ∧ (Release.waitSys s rid false (some t)).2.releases = s.releases
    ∧ (∀ tag, (Release.waitSys s rid false (some t)).2.handlers tag
        = s.handlers tag) := by
  exact ⟨rfl, rfl, rfl, rfl, fun tag => rfl⟩

/-- C7: when the pump delivers a message for a tag whose release is
subscribed, the trigger path records the payload, marks the release
fulfilled and enqueues the deregistration, which the same iteration's
drain executes, so the iteration ends with the tag unsubscribed; any
subsequent publish to that tag (absent a new subscribe) is never
delivered again. -/
theorem release_trigger_removes_subscription
    (q : ℚ) (ext : List PCmd) (tag data : String) (rid : Nat) (s : PumpState)
    (h : s.handlers tag = some rid) :
    (DynamicPubSub.pumpIter q ⟨ext, some (tag, data)⟩ s).1.releases rid
        = ⟨some data, true⟩
    ∧ (DynamicPubSub.pumpIter q ⟨ext, some (tag, data)⟩ s).1.handlers tag = none
    ∧ ∀ inputs, (∀ inp ∈ inputs, ∀ r2, PCmd.subscribeCmd tag r2 ∉ inp.ext) →
        ∀ r2, PEvent.deliverEvent tag r2
          ∉ (DynamicPubSub.run q inputs
              (DynamicPubSub.pumpIter q ⟨ext, some (tag, data)⟩ s).1).2 := by
  have hpi : DynamicPubSub.pumpIter q ⟨ext, some (tag, data)⟩ s
      = ((DynamicPubSub.drainRun (s.queue ++ (ext ++ [PCmd.unsubscribeCmd tag]))
            ⟨s.handlers,
             fun r => if r = rid then ⟨some data, true⟩ else s.releases r,
             [], s.closed⟩).1,
         PEvent.pollEvent q :: PEvent.deliverEvent tag rid
           :: (DynamicPubSub.drainRun (s.queue ++ (ext ++ [PCmd.unsubscribeCmd tag]))
            ⟨s.handlers,
             fun r => if r = rid then ⟨some data, true⟩ else s.releases r,
             [], s.closed⟩).2) := by
    simp [DynamicPubSub.pumpIter, DynamicPubSub.dispatch, h]
  have hhd : (DynamicPubSub.pumpIter q ⟨ext, some (tag, data)⟩ s).1.handlers tag
      = none := by
    rw [hpi, ← List.append_assoc]
    exact DynamicPubSub.drainRun_last_unsub _ tag _
  refine ⟨?_, hhd, ?_⟩
  · rw [hpi, DynamicPubSub.drainRun_releases]
    simp
  · intro inputs hins r2
    have hqe : (DynamicPubSub.pumpIter q ⟨ext, some (tag, data)⟩ s).1.queue = [] := by
      rw [hpi, DynamicPubSub.drainRun_queue]
    exact (DynamicPubSub.run_no_deliver q inputs _ tag hhd
      (fun r3 hmem => by rw [hqe] at hmem; simp at hmem) hins).1 r2

/-- C7 witness: a pump with release 0 subscribed on channel a receives
a message on a; the iteration fulfills the release, unsubscribes a, and
a following iteration that polls another publish on a delivers
nothing. -/
theorem release_trigger_removes_subscription_witness :
    (DynamicPubSub.pumpIter 1 ⟨[], some ("a", "m")⟩
        ⟨fun t => if t = "a" then some 0 else none, fun _ => Release.init,
         [], false⟩).1.releases 0 = ⟨some "m", true⟩
    ∧ (DynamicPubSub.pumpIter 1 ⟨[], some ("a", "m")⟩
        ⟨fun t => if t = "a" then some 0 else none, fun _ => Release.init,
         [], false⟩).1.handlers "a" = none
    ∧ PEvent.deliverEvent "a" 0
        ∉ (DynamicPubSub.run 1 [⟨[], some ("a", "m2")⟩]
            (DynamicPubSub.pumpIter 1 ⟨[], some ("a", "m")⟩
              ⟨fun t => if t = "a" then some 0 else none, fun _ => Release.init,
               [], false⟩).1).2 := by
  have h := release_trigger_removes_subscription 1 [] "a" "m" 0
    ⟨fun t => if t = "a" then some 0 else none, fun _ => Release.init, [], false⟩
    (by simp)
  exact ⟨h.1, h.2.1,
    h.2.2 [⟨[], some ("a", "m2")⟩]
      (by intro inp hinp r2; simp at hinp; rw [hinp]; simp) 0⟩

/-- C9: executing unsubscribe for a tag is idempotent, never errors (it
is a total operation), removes at most that tag's registration, and on
a tag that is not registered it changes no registration at all; the
releases and the queue are untouched. -/
theorem release_notifier_unlisten_idempotent (s : PumpState) (tag : String) :
    DynamicPubSub.execCmd (.unsubscribeCmd tag)
        (DynamicPubSub.execCmd (.unsubscribeCmd tag) s)
      = DynamicPubSub.execCmd (.unsubscribeCmd tag) s
    ∧ (DynamicPubSub.execCmd (.unsubscribeCmd tag) s).handlers tag = none
    ∧ (∀ t2, t2 ≠ tag →
        (DynamicPubSub.execCmd (.unsubscribeCmd tag) s).handlers t2 = s.handlers t2)
    ∧ (s.handlers tag = none →
        (DynamicPubSub.execCmd (.unsubscribeCmd tag) s).handlers = s.handlers)
    ∧ (DynamicPubSub.execCmd (.unsubscribeCmd tag) s).releases = s.releases
    ∧ (DynamicPubSub.execCmd (.unsubscribeCmd tag) s).queue = s.queue := by
  refine ⟨?_, ?_, ?_, ?_, rfl, rfl⟩
  · simp only [DynamicPubSub.execCmd]
    congr 1
    funext t2
    by_cases h : t2 = tag <;> simp [h]
  · simp [DynamicPubSub.execCmd]
  · intro t2 h
    simp [DynamicPubSub.execCmd, h]
  · intro h
    funext t2
    by_cases h2 : t2 = tag <;> simp [DynamicPubSub.execCmd, h2, h]

/-- C10: for a delivered broker message, trigger stores as the release
payload the UTF-8 decoding of the data bytes and deregisters the
channel named by the UTF-8 decoding of the channel bytes taken from the
message itself (any original listen tag differing from that decoded
channel is not the one deregistered); the stored payload is a decoded
text string, and wait then returns exactly that string. -/
theorem release_trigger_decodes (msg : RawMsg) (tag data : String)
    (hc : utf8DecodeStr msg.channel = some tag)
    (hd : utf8DecodeStr msg.data = some data) :
    Release.trigger msg = some ⟨tag, data, ⟨some data, true⟩⟩
    ∧ (∀ original : String, original ≠ tag →
        (Release.trigger msg).map TriggerEffect.unlistenedTag ≠ some original)
    ∧ (∀ timeout, Release.wait ⟨some data, true⟩ true timeout
        = Except.ok (some data)) := by
  have h1 : Release.trigger msg = some ⟨tag, data, ⟨some data, true⟩⟩ := by
    simp [Release.trigger, hc, hd]
  refine ⟨h1, ?_, ?_⟩
  · intro original hne
    rw [h1]
    simp [hne.symm]
  · intro timeout
    cases timeout <;> rfl

/-- C10 witness: a message with channel bytes 0x63 0x68 and data bytes
0xC3 0xA9 triggers with unlistened channel ch and stored payload the
decoded two-byte character. -/
theorem release_trigger_decodes_witness :
    Release.trigger ⟨[0x63, 0x68], [0xC3, 0xA9]⟩
      = some ⟨"ch", "é", ⟨some "é", true⟩⟩ :=
  (release_trigger_decodes ⟨[0x63, 0x68], [0xC3, 0xA9]⟩ "ch" "é"
    (by decide) (by decide)).1

/-- C9 witness: on a pump state with no registrations, unsubscribing a
tag that was never registered changes nothing and the tag stays
unregistered. -/
theorem release_notifier_unlisten_idempotent_witness :
    (DynamicPubSub.execCmd (.unsubscribeCmd "a")
        ⟨fun _ => none, fun _ => Release.init, [], false⟩).handlers
      = (⟨fun _ => none, fun _ => Release.init, [], false⟩ : PumpState).handlers
    ∧ (DynamicPubSub.execCmd (.unsubscribeCmd "a")
        ⟨fun _ => none, fun _ => Release.init, [], false⟩).handlers "a" = none := by
  exact ⟨(release_notifier_unlisten_idempotent
            ⟨fun _ => none, fun _ => Release.init, [], false⟩ "a").2.2.2.1 rfl,
         (release_notifier_unlisten_idempotent
            ⟨fun _ => none, fun _ => Release.init, [], false⟩ "a").2.1⟩

end BarrierApi
